import Mathlib

/-!
# Verification of the Hack assembler

A shallow embedding of `assembler.py`, the two-pass assembler for the Hack
platform, together with theorems settling the specification claims.
Lines and strings are modelled as lists of characters; the Python
dictionaries are modelled as functions from keys to `Option Nat`;
code that can raise an exception returns an `Option` or `Except` value.
-/

namespace Hack

/-- A string of the source program, as a list of characters. -/
abbrev Str := List Char

/-- Characters stripped by Python's `str.strip()`. -/
def isPySpace (c : Char) : Bool :=
  c = ' ' || c = '\t' || c = '\n' || c = '\r' || c = '\x0b' || c = '\x0c'

/-- Python `str.strip()`: drop leading and trailing whitespace. -/
def PyStrip (l : Str) : Str :=
  ((l.dropWhile isPySpace).reverse.dropWhile isPySpace).reverse

/-- `RemoveTrailingComment`: cut the line at the first occurrence of `//`. -/
def RemoveTrailingComment : Str → Str
  | [] => []
  | c :: rest =>
    if c = '/' ∧ rest.head? = some '/' then []
    else c :: RemoveTrailingComment rest

/-- Python `int` on a digit string. -/
def digitsToNat (l : Str) : Nat :=
  l.foldl (fun a c => 10 * a + (c.toNat - 48)) 0

/-- First character class of `_RE_SYMBOL`: `[a-zA-Z_$.:]`. -/
def isSymFirst (c : Char) : Bool :=
  c.isAlpha || c = '_' || c = '$' || c = '.' || c = ':'

/-- Later character class of `_RE_SYMBOL`: `[a-zA-Z0-9_$.:]`. -/
def isSymRest (c : Char) : Bool :=
  isSymFirst c || c.isDigit

/-- Whether a string matches `_RE_SYMBOL` completely. -/
def isSymbolStr : Str → Bool
  | [] => false
  | c :: rest => isSymFirst c && rest.all isSymRest

/-- The value held by an addressing instruction: integer literal or symbol. -/
inductive AValue where
  | num (n : Nat)
  | sym (s : Str)
deriving DecidableEq, Repr

/-- The five instruction variants produced by the line classifier. -/
inductive Instruction where
  | aInst (v : AValue)
  | cInst (dest comp jump : Str)
  | lInst (s : Str)
  | empty
  | error (line : Str)
deriving DecidableEq, Repr

/-- `AInstruction.Parse` on the already stripped line: the regex
`^@(\d*|SYMBOL)$` followed by `_ParseValue` (digit strings are range
checked against `2^15`; everything else is kept symbolic).  Note the
Python regex uses `\d*`, so the empty tail also matches. -/
def AInstruction.ParseStripped (s : Str) : Option Instruction :=
  match s with
  | [] => none
  | c :: rest =>
    if c = '@' then
      if rest.all Char.isDigit || isSymbolStr rest then
        if !rest.isEmpty && rest.all Char.isDigit then
          if digitsToNat rest < 2 ^ 15 then
            some (.aInst (.num (digitsToNat rest)))
          else none
        else some (.aInst (.sym rest))
      else none
    else none

/-- `AInstruction.Parse` on a raw line. -/
def AInstruction.Parse (line : Str) : Option Instruction :=
  AInstruction.ParseStripped (PyStrip (RemoveTrailingComment line))

/-- Split a list at the first occurrence of `sep`; the separator is kept
in neither part. -/
def splitAtFirst (sep : Char) : Str → Option (Str × Str)
  | [] => none
  | c :: rest =>
    if c = sep then some ([], rest)
    else (splitAtFirst sep rest).map (fun p => (c :: p.1, p.2))

/-- The seven destination mnemonics of `_RE_DEST`. -/
def destMnemonics : List Str :=
  [['M'], ['D'], ['M', 'D'], ['A'], ['A', 'M'], ['A', 'D'], ['A', 'M', 'D']]

/-- The seven jump mnemonics of `_RE_JUMP`. -/
def jumpMnemonics : List Str :=
  [['J', 'G', 'T'], ['J', 'E', 'Q'], ['J', 'G', 'E'], ['J', 'L', 'T'],
   ['J', 'N', 'E'], ['J', 'L', 'E'], ['J', 'M', 'P']]

/-- The 28 computation expressions of `_RE_COMP` (note that `-A` is in the
grammar). -/
def compAlternatives : List Str :=
  [['0'], ['1'], ['-', '1'], ['D'], ['A'], ['!', 'D'], ['!', 'A'],
   ['-', 'D'], ['-', 'A'], ['D', '+', '1'], ['A', '+', '1'], ['D', '-', '1'],
   ['A', '-', '1'], ['D', '+', 'A'], ['D', '-', 'A'], ['A', '-', 'D'],
   ['D', '&', 'A'], ['D', '|', 'A'], ['M'], ['!', 'M'], ['-', 'M'],
   ['M', '+', '1'], ['M', '-', '1'], ['D', '+', 'M'], ['D', '-', 'M'],
   ['M', '-', 'D'], ['D', '&', 'M'], ['D', '|', 'M']]

/-- Parse the `comp` and optional `;jump` part of a compute instruction.
Since no computation expression or mnemonic contains `;`, the regex match
of `_RE_CINSTRUCTION` is equivalent to splitting at the first `;`. -/
def CInstruction.ParseCompJump (d : Str) (r : Str) : Option Instruction :=
  match splitAtFirst ';' r with
  | some (c, j) =>
    if c ∈ compAlternatives ∧ j ∈ jumpMnemonics then some (.cInst d c j)
    else none
  | none =>
    if r ∈ compAlternatives then some (.cInst d r []) else none

/-- `CInstruction.Parse` on the already stripped line.  Since no mnemonic
or computation expression contains `=`, the regex match is equivalent to
splitting at the first `=`: if one exists the prefix must be a destination
mnemonic, otherwise the destination field is empty. -/
def CInstruction.ParseStripped (s : Str) : Option Instruction :=
  match splitAtFirst '=' s with
  | some (d, r) =>
    if d ∈ destMnemonics then CInstruction.ParseCompJump d r else none
  | none => CInstruction.ParseCompJump [] s

/-- `CInstruction.Parse` on a raw line. -/
def CInstruction.Parse (line : Str) : Option Instruction :=
  CInstruction.ParseStripped (PyStrip (RemoveTrailingComment line))

/-- `LInstruction.Parse` on the already stripped line: the regex
`^\((SYMBOL)\)$`. -/
def LInstruction.ParseStripped (s : Str) : Option Instruction :=
  match s with
  | [] => none
  | c :: rest =>
    if c = '(' then
      if rest.getLast? = some ')' && isSymbolStr rest.dropLast then
        some (.lInst rest.dropLast)
      else none
    else none

/-- `LInstruction.Parse` on a raw line. -/
def LInstruction.Parse (line : Str) : Option Instruction :=
  LInstruction.ParseStripped (PyStrip (RemoveTrailingComment line))

/-- `EmptyInstruction.Parse`: succeeds exactly on lines that are empty
after comment stripping and whitespace trimming. -/
def EmptyInstruction.Parse (line : Str) : Option Instruction :=
  if PyStrip (RemoveTrailingComment line) = [] then some .empty else none

/-- `ParseInstruction`: try the parsers in the order given by the
`_INSTRUCTIONS` table — `AInstruction`, `CInstruction`, `LInstruction`,
`EmptyInstruction` — and fall back to an `ErrorInstruction` holding the
original, unstripped line. -/
def ParseInstruction (line : Str) : Instruction :=
  match AInstruction.Parse line with
  | some i => i
  | none =>
    match CInstruction.Parse line with
    | some i => i
    | none =>
      match LInstruction.Parse line with
      | some i => i
      | none =>
        match EmptyInstruction.Parse line with
        | some i => i
        | none => .error line

deriving instance DecidableEq for Except

/-- Is an instruction the error variant? -/
def isErrorInst : Instruction → Bool
  | .error _ => true
  | _ => false

/-- The message `"Error at line %d: %s"` built by `Parse`. -/
def fmtErrorMsg (n : Nat) (l : Str) : Str :=
  "Error at line ".data ++ (Nat.repr n).data ++ ": ".data ++ l

/-- The error-collecting loop of `Parse`: walk the instruction list with a
1-based line counter and record a message for every error instruction. -/
def collectErrors (n : Nat) : List Instruction → List Str
  | [] => []
  | .error l :: rest => fmtErrorMsg n l :: collectErrors (n + 1) rest
  | _ :: rest => collectErrors (n + 1) rest

/-- `os.linesep.join`: join the messages with the platform line separator. -/
def joinLinesep : List Str → Str
  | [] => []
  | [l] => l
  | l :: rest => l ++ '\n' :: joinLinesep rest

/-- `Parse`: classify every line, and either raise an `AssemblerError`
holding all collected messages, or return the full instruction list. -/
def Parse (lines : List Str) : Except Str (List Instruction) :=
  if (collectErrors 1 (lines.map ParseInstruction)).isEmpty then
    .ok (lines.map ParseInstruction)
  else .error (joinLinesep (collectErrors 1 (lines.map ParseInstruction)))

/-- The loop body of `_ToBinary15`: `str(number % 2)` as a character. -/
def bitChar (n : Nat) : Char :=
  if n = 1 then '1' else '0'

/-- The loop of `_ToBinary15`: `k` rounds of prepending the low bit and
halving. -/
def AInstruction.ToBinaryAux : Nat → Nat → Str → Str
  | 0, _, acc => acc
  | k + 1, n, acc => AInstruction.ToBinaryAux k (n / 2) (bitChar (n % 2) :: acc)

/-- `AInstruction._ToBinary15`. -/
def AInstruction.ToBinary15 (n : Nat) : Str :=
  AInstruction.ToBinaryAux 15 n []

/-- `AInstruction.ToBinary` on a resolved (integer) value. -/
def AInstruction.ToBinary (n : Nat) : Str :=
  '0' :: AInstruction.ToBinary15 n

/-- Association-list lookup used for the three fixed encoding tables. -/
def tableFind : List (Str × Str) → Str → Option Str
  | [], _ => none
  | (k, v) :: rest, s => if s = k then some v else tableFind rest s

/-- `CInstruction._COMP_TABLE`: the 27 entries literally present in the
source (the grammar's `-A` has no entry). -/
def compTable : List (Str × Str) :=
  [("0".data, "0101010".data),
   ("1".data, "0111111".data),
   ("-1".data, "0111010".data),
   ("D".data, "0001100".data),
   ("A".data, "0110000".data),
   ("!D".data, "0001101".data),
   ("!A".data, "0110001".data),
   ("-D".data, "0001111".data),
   ("D+1".data, "0011111".data),
   ("A+1".data, "0110111".data),
   ("D-1".data, "0001110".data),
   ("A-1".data, "0110010".data),
   ("D+A".data, "0000010".data),
   ("D-A".data, "0010011".data),
   ("A-D".data, "0000111".data),
   ("D&A".data, "0000000".data),
   ("D|A".data, "0010101".data),
   ("M".data, "1110000".data),
   ("!M".data, "1110001".data),
   ("-M".data, "1110011".data),
   ("M+1".data, "1110111".data),
   ("M-1".data, "1110010".data),
   ("D+M".data, "1000010".data),
   ("D-M".data, "1010011".data),
   ("M-D".data, "1000111".data),
   ("D&M".data, "1000000".data),
   ("D|M".data, "1010101".data)]

/-- `CInstruction._DEST_TABLE`. -/
def destTable : List (Str × Str) :=
  [([], "000".data),
   ("M".data, "001".data),
   ("D".data, "010".data),
   ("MD".data, "011".data),
   ("A".data, "100".data),
   ("AM".data, "101".data),
   ("AD".data, "110".data),
   ("AMD".data, "111".data)]

/-- `CInstruction._JUMP_TABLE`. -/
def jumpTable : List (Str × Str) :=
  [([], "000".data),
   ("JGT".data, "001".data),
   ("JEQ".data, "010".data),
   ("JGE".data, "011".data),
   ("JLT".data, "100".data),
   ("JNE".data, "101".data),
   ("JLE".data, "110".data),
   ("JMP".data, "111".data)]

/-- `CInstruction.ToBinary`: `"111"` followed by the three table lookups.
A missing key raises a `KeyError` in Python, modelled by `none`. -/
def CInstruction.ToBinary (dest comp jump : Str) : Option Str :=
  match tableFind compTable comp, tableFind destTable dest,
      tableFind jumpTable jump with
  | some c, some d, some j => some ("111".data ++ c ++ d ++ j)
  | _, _, _ => none

/-- The symbol table: a mapping from symbol names to addresses. -/
def SymTable := Str → Option Nat

/-- Empty symbol table. -/
def emptyTable : SymTable := fun _ => none

/-- Dictionary update `table[k] = v` (overwrites an existing entry). -/
def tinsert (t : SymTable) (k : Str) (v : Nat) : SymTable :=
  fun s => if s = k then some v else t s

/-- The seven named entries of `InitialSymbolTable`. -/
def baseTable : SymTable :=
  tinsert (tinsert (tinsert (tinsert (tinsert (tinsert (tinsert emptyTable
    "SP".data 0) "LCL".data 1) "ARG".data 2) "THIS".data 3) "THAT".data 4)
    "SCREEN".data 16384) "KBD".data 24576

/-- `InitialSymbolTable`: the seven named entries plus `R0 … R15`. -/
def InitialSymbolTable : SymTable :=
  (List.range 16).foldl (fun t i => tinsert t ('R' :: (Nat.repr i).data) i)
    baseTable

/-- The label pass of `AnalyzeSymbols`: record each label at the current
instruction address; address and compute instructions advance the
address. -/
def labelPass : List Instruction → Nat → SymTable → SymTable
  | [], _, t => t
  | .lInst v :: rest, a, t => labelPass rest a (tinsert t v a)
  | .aInst _ :: rest, a, t => labelPass rest (a + 1) t
  | .cInst _ _ _ :: rest, a, t => labelPass rest (a + 1) t
  | _ :: rest, a, t => labelPass rest a t

/-- The variable pass of `AnalyzeSymbols`: allocate each not-yet-present
symbolic address reference at the next free variable address. -/
def varPass : List Instruction → Nat → SymTable → SymTable
  | [], _, t => t
  | .aInst (.sym v) :: rest, next, t =>
    if (t v).isNone then varPass rest (next + 1) (tinsert t v next)
    else varPass rest next t
  | _ :: rest, next, t => varPass rest next t

/-- `AnalyzeSymbols`: labels first (addresses from 0), then variables
(addresses from 16). -/
def AnalyzeSymbols (xs : List Instruction) : SymTable :=
  varPass xs 16 (labelPass xs 0 InitialSymbolTable)

/-- The loop of `StripSymbols` against a fixed symbol table: keep address
and compute instructions, replace symbolic address values by their table
entry (a missing key would raise in Python, modelled by `none`), and drop
everything else. -/
def stripWith (t : SymTable) : List Instruction → Option (List Instruction)
  | [] => some []
  | .aInst (.sym v) :: rest =>
    match t v with
    | some n => (stripWith t rest).map (fun ys => .aInst (.num n) :: ys)
    | none => none
  | .aInst (.num n) :: rest =>
    (stripWith t rest).map (fun ys => .aInst (.num n) :: ys)
  | .cInst d c j :: rest =>
    (stripWith t rest).map (fun ys => .cInst d c j :: ys)
  | _ :: rest => stripWith t rest

/-- `StripSymbols`: analyze the symbols of the sequence, then strip it. -/
def StripSymbols (xs : List Instruction) : Option (List Instruction) :=
  stripWith (AnalyzeSymbols xs) xs

/-- Does an instruction occupy an instruction address (address or compute)? -/
def isAC : Instruction → Bool
  | .aInst _ => true
  | .cInst _ _ _ => true
  | _ => false

/-- The number of address and compute instructions in a sequence. -/
def countAC : List Instruction → Nat
  | [] => 0
  | i :: rest => (if isAC i then 1 else 0) + countAC rest

/-- Spec-side: the `w`-bit big-endian binary representation of a number,
most significant bit first. -/
def bigEndianBits : Nat → Nat → Str
  | 0, _ => []
  | w + 1, n => bigEndianBits w (n / 2) ++ [bitChar (n % 2)]

/-- Spec-side: how the symbol eliminator treats one instruction — keep
address and compute instructions, resolving symbolic values through the
table, and drop labels, blanks and errors. -/
def resolveOne (t : SymTable) : Instruction → Option Instruction
  | .aInst (.sym v) => (t v).map (fun n => .aInst (.num n))
  | .aInst (.num n) => some (.aInst (.num n))
  | .cInst d c j => some (.cInst d c j)
  | _ => none

/-- The list of variable symbols the variable pass starting from table `t`
allocates, in allocation order: first occurrences of symbolic address
values not present in `t`. -/
def nvGo (t : SymTable) : List Instruction → List Str
  | [] => []
  | .aInst (.sym v) :: rest =>
    if (t v).isNone then v :: nvGo (tinsert t v 0) rest else nvGo t rest
  | _ :: rest => nvGo t rest

/-- The fresh variable symbols of a program, in allocation order. -/
def newVars (xs : List Instruction) : List Str :=
  nvGo (labelPass xs 0 InitialSymbolTable) xs

/-- Index of the first occurrence of an element in a list. -/
def idxInList (s : Str) : List Str → Option Nat
  | [] => none
  | x :: rest =>
    if s = x then some 0 else (idxInList s rest).map (fun k => k + 1)

/-- Spec-side: the address the label pass finally records for a symbol —
the instruction address of its textually last label declaration, with the
address counter starting at `a`. -/
def lastLabelAddr : List Instruction → Nat → Str → Option Nat
  | [], _, _ => none
  | .lInst v :: rest, a, s =>
    match lastLabelAddr rest a s with
    | some n => some n
    | none => if s = v then some a else none
  | .aInst _ :: rest, a, s => lastLabelAddr rest (a + 1) s
  | .cInst _ _ _ :: rest, a, s => lastLabelAddr rest (a + 1) s
  | _ :: rest, a, s => lastLabelAddr rest a s

/-- Spec-side: the (amended) address grammar on a stripped line: `@`
followed by a digit string (empty, or with value below `2^15`) or by a
symbol name. -/
def aGrammarOk : Str → Bool
  | [] => false
  | c :: rest =>
    if c = '@' then
      if rest.all Char.isDigit then
        rest.isEmpty || decide (digitsToNat rest < 2 ^ 15)
      else isSymbolStr rest
    else false

/-- Spec-side: one formatted message per invalid line, with 1-based line
numbers over the whole input. -/
def errorMessagesSpec (lines : List Str) : List Str :=
  (List.enumFrom 1 lines).filterMap
    (fun p => if isErrorInst (ParseInstruction p.2) then
      some (fmtErrorMsg p.1 p.2) else none)

/-- A program with `2^15` compute instructions followed by a label and a
reference to it: the label resolves to address `2^15`, outside the 15-bit
range. -/
def overflowLines : List Str :=
  List.replicate 32768 "D=A".data ++ ["(L)".data, "@L".data]

/-- The classification of `overflowLines`. -/
def overflowParsed : List Instruction :=
  List.replicate 32768 (.cInst "D".data "A".data [])
    ++ [.lInst "L".data, .aInst (.sym "L".data)]

/-- The symbol eliminator's output on `overflowParsed`. -/
def overflowOut : List Instruction :=
  List.replicate 32768 (.cInst "D".data "A".data []) ++ [.aInst (.num 32768)]

/-! ## Lemmas about the binary encoder -/

theorem ToBinaryAux_eq (k : Nat) :
    ∀ n acc, AInstruction.ToBinaryAux k n acc = bigEndianBits k n ++ acc := by
  induction k with
  | zero => intro n acc; rfl
  | succ k ih =>
    intro n acc
    simp [AInstruction.ToBinaryAux, bigEndianBits, ih (n / 2)]

theorem bigEndianBits_length (w : Nat) : ∀ n, (bigEndianBits w n).length = w := by
  induction w with
  | zero => intro n; rfl
  | succ w ih => intro n; simp [bigEndianBits, ih]

theorem bitChar_cases (n : Nat) : bitChar n = '0' ∨ bitChar n = '1' := by
  unfold bitChar; split <;> simp

theorem bigEndianBits_chars (w : Nat) :
    ∀ n c, c ∈ bigEndianBits w n → c = '0' ∨ c = '1' := by
  induction w with
  | zero => intro n c h; simp [bigEndianBits] at h
  | succ w ih =>
    intro n c h
    simp only [bigEndianBits, List.mem_append, List.mem_singleton] at h
    rcases h with h | h
    · exact ih _ c h
    · rw [h]; exact bitChar_cases _

/-- C4: For every integer `v` with `0 ≤ v < 2^15`, encoding an Address
instruction holding value `v` yields a 16-character string of `'0'`/`'1'`
characters equal to `'0'` followed by the 15-bit big-endian unsigned
binary representation of `v`. -/
theorem address_encoding_correct (v : Nat) (h : v < 2 ^ 15) :
    AInstruction.ToBinary v = '0' :: bigEndianBits 15 v ∧
    (AInstruction.ToBinary v).length = 16 ∧
    ∀ c ∈ AInstruction.ToBinary v, c = '0' ∨ c = '1' := by
  have he : AInstruction.ToBinary v = '0' :: bigEndianBits 15 v := by
    simp [AInstruction.ToBinary, AInstruction.ToBinary15, ToBinaryAux_eq]
  refine ⟨he, ?_, ?_⟩
  · rw [he]; simp [bigEndianBits_length]
  · intro c hc
    rw [he] at hc
    rcases hc with _ | hc
    · left; rfl
    · exact bigEndianBits_chars 15 v c (by assumption)

/-- C4 witness at `v = 2`. -/
theorem address_encoding_correct_witness :
    2 < 2 ^ 15 ∧
      (AInstruction.ToBinary 2 = '0' :: bigEndianBits 15 2 ∧
      (AInstruction.ToBinary 2).length = 16 ∧
      ∀ c ∈ AInstruction.ToBinary 2, c = '0' ∨ c = '1') :=
  ⟨by decide, address_encoding_correct 2 (by decide)⟩

/-- C1: the computation expression `-A` is one of the 28 alternatives of
the compute grammar and the parser accepts the line `D=-A`, yet
`_COMP_TABLE` holds no entry for `-A`, so the binary encoding of an
accepted compute instruction fails (`KeyError` in Python, `none` here):
encoding is *not* total on parser-accepted compute instructions. -/
theorem comp_table_missing_minus_a :
    ("-A".data ∈ compAlternatives) ∧
    ParseInstruction "D=-A".data = .cInst "D".data "-A".data [] ∧
    tableFind compTable "-A".data = none ∧
    CInstruction.ToBinary "D".data "-A".data [] = none := by
  refine ⟨by decide, by decide, by decide, by decide⟩

/-! ## Lemmas about the line classifier -/

/-- C6: line classification is total (the function always yields an
instruction) and tries the five grammars in the fixed order Address,
Compute, Label, Empty, Error: the first parser that succeeds determines
the classification, and when all four valid grammars fail the line is
classified as an Error instruction carrying the original unstripped
text. -/
theorem classification_priority_order (line : Str) :
    (∀ i, AInstruction.Parse line = some i → ParseInstruction line = i) ∧
    (AInstruction.Parse line = none →
      ∀ i, CInstruction.Parse line = some i → ParseInstruction line = i) ∧
    (AInstruction.Parse line = none → CInstruction.Parse line = none →
      ∀ i, LInstruction.Parse line = some i → ParseInstruction line = i) ∧
    (AInstruction.Parse line = none → CInstruction.Parse line = none →
      LInstruction.Parse line = none →
      ∀ i, EmptyInstruction.Parse line = some i → ParseInstruction line = i) ∧
    (AInstruction.Parse line = none → CInstruction.Parse line = none →
      LInstruction.Parse line = none → EmptyInstruction.Parse line = none →
      ParseInstruction line = .error line) := by
  refine ⟨?_, ?_, ?_, ?_, ?_⟩ <;>
    · intros
      simp_all [ParseInstruction]

/-- C6 witness: the line `foo!` matches none of the four valid grammars
and is classified as an Error instruction carrying the line itself. -/
theorem classification_priority_order_witness :
    ParseInstruction "foo!".data = .error "foo!".data :=
  (classification_priority_order "foo!".data).2.2.2.2
    (by decide) (by decide) (by decide) (by decide)

theorem aParseStripped_shape (s : Str) (i : Instruction)
    (h : AInstruction.ParseStripped s = some i) : ∃ v, i = .aInst v := by
  cases s with
  | nil => cases h
  | cons c rest =>
    unfold AInstruction.ParseStripped at h
    repeat' split at h
    all_goals cases h
    all_goals exact ⟨_, rfl⟩

theorem CInstruction.ParseCompJump_shape (d r : Str) (i : Instruction)
    (h : CInstruction.ParseCompJump d r = some i) :
    ∃ dest comp jump, i = .cInst dest comp jump := by
  unfold CInstruction.ParseCompJump at h
  repeat' split at h
  all_goals cases h
  all_goals exact ⟨_, _, _, rfl⟩

theorem cParseStripped_shape (s : Str) (i : Instruction)
    (h : CInstruction.ParseStripped s = some i) :
    ∃ dest comp jump, i = .cInst dest comp jump := by
  unfold CInstruction.ParseStripped at h
  repeat' split at h
  all_goals first
    | cases h
    | exact CInstruction.ParseCompJump_shape _ _ _ h

theorem lParseStripped_shape (s : Str) (i : Instruction)
    (h : LInstruction.ParseStripped s = some i) : ∃ v, i = .lInst v := by
  cases s with
  | nil => cases h
  | cons c rest =>
    unfold LInstruction.ParseStripped at h
    repeat' split at h
    all_goals cases h
    all_goals exact ⟨_, rfl⟩

theorem EmptyInstruction.Parse_shape (line : Str) (i : Instruction)
    (h : EmptyInstruction.Parse line = some i) : i = .empty := by
  unfold EmptyInstruction.Parse at h
  split at h
  · exact (Option.some.inj h).symm
  · cases h

/-- The only way a line is classified as an Error instruction is through
the catch-all, which stores the original line itself. -/
theorem ParseInstruction_error_line (line l : Str)
    (h : ParseInstruction line = .error l) : l = line := by
  unfold ParseInstruction at h
  cases ha : AInstruction.Parse line with
  | some i =>
    rw [ha] at h
    obtain ⟨v, rfl⟩ := aParseStripped_shape _ _ ha
    cases h
  | none =>
    rw [ha] at h
    cases hc : CInstruction.Parse line with
    | some i =>
      rw [hc] at h
      obtain ⟨d, c, j, rfl⟩ := cParseStripped_shape _ _ hc
      cases h
    | none =>
      rw [hc] at h
      cases hl : LInstruction.Parse line with
      | some i =>
        rw [hl] at h
        obtain ⟨v, rfl⟩ := lParseStripped_shape _ _ hl
        cases h
      | none =>
        rw [hl] at h
        cases he : EmptyInstruction.Parse line with
        | some i =>
          rw [he] at h
          rw [EmptyInstruction.Parse_shape _ _ he] at h
          cases h
        | none =>
          rw [he] at h
          exact (Instruction.error.inj h).symm

theorem collectErrors_map (lines : List Str) :
    ∀ k, collectErrors k (lines.map ParseInstruction)
      = (List.enumFrom k lines).filterMap
        (fun p => if isErrorInst (ParseInstruction p.2) then
          some (fmtErrorMsg p.1 p.2) else none) := by
  induction lines with
  | nil => intro k; rfl
  | cons l rest ih =>
    intro k
    simp only [List.map_cons, List.enumFrom, List.filterMap_cons]
    cases h : ParseInstruction l with
    | error l' =>
      have : l' = l := ParseInstruction_error_line _ _ h
      subst this
      simp [collectErrors, h, isErrorInst, ih (k + 1)]
    | aInst v => simp [collectErrors, h, isErrorInst, ih (k + 1)]
    | cInst d c j => simp [collectErrors, h, isErrorInst, ih (k + 1)]
    | lInst v => simp [collectErrors, h, isErrorInst, ih (k + 1)]
    | empty => simp [collectErrors, h, isErrorInst, ih (k + 1)]

theorem errorMessagesSpec_eq_nil (lines : List Str) :
    errorMessagesSpec lines = [] ↔
      ∀ l ∈ lines, isErrorInst (ParseInstruction l) = false := by
  unfold errorMessagesSpec
  rw [List.filterMap_eq_nil_iff, List.forall_mem_enumFrom,
    List.forall_mem_iff_getElem]
  simp

/-- C5: the parsing stage fails if and only if at least one line is
classified as an Error instruction; on failure the aggregate message is
the join, in declaration order, of one message `Error at line N: text`
per invalid line, with `N` the 1-based position among *all* input lines;
with no invalid line the full list of parsed instructions is returned. -/
theorem parse_error_aggregation (lines : List Str) :
    ((∃ l ∈ lines, isErrorInst (ParseInstruction l) = true) →
      errorMessagesSpec lines ≠ [] ∧
      Parse lines = .error (joinLinesep (errorMessagesSpec lines))) ∧
    ((∀ l ∈ lines, isErrorInst (ParseInstruction l) = false) →
      Parse lines = .ok (lines.map ParseInstruction)) := by
  have hc : collectErrors 1 (lines.map ParseInstruction)
      = errorMessagesSpec lines := collectErrors_map lines 1
  constructor
  · intro hex
    have hne : errorMessagesSpec lines ≠ [] := by
      intro hnil
      obtain ⟨l, hl, hp⟩ := hex
      have := (errorMessagesSpec_eq_nil lines).mp hnil l hl
      rw [this] at hp
      cases hp
    refine ⟨hne, ?_⟩
    unfold Parse
    rw [hc]
    simp only [List.isEmpty_iff]
    split
    · exact absurd (by assumption) hne
    · rfl
  · intro hall
    have hnil : errorMessagesSpec lines = [] :=
      (errorMessagesSpec_eq_nil lines).mpr hall
    unfold Parse
    rw [hc, hnil]
    rfl

/-- C5 witness at the one-line program `I like pie!`. -/
theorem parse_error_aggregation_witness :
    errorMessagesSpec ["I like pie!".data] ≠ [] ∧
      Parse ["I like pie!".data]
        = .error (joinLinesep (errorMessagesSpec ["I like pie!".data])) :=
  (parse_error_aggregation ["I like pie!".data]).1 (by decide)

/-! ## Lemmas about the symbol table builder -/

theorem labelPass_eq (xs : List Instruction) :
    ∀ a t s, labelPass xs a t s
      = match lastLabelAddr xs a s with
        | some n => some n
        | none => t s := by
  induction xs with
  | nil => intro a t s; rfl
  | cons i rest ih =>
    intro a t s
    cases i with
    | lInst v =>
      simp only [labelPass, lastLabelAddr, ih]
      cases lastLabelAddr rest a s with
      | some n => rfl
      | none =>
        simp only [tinsert]
        by_cases hsv : s = v <;> simp [hsv]
    | aInst w => simp only [labelPass, lastLabelAddr, ih]
    | cInst d c j => simp only [labelPass, lastLabelAddr, ih]
    | empty => simp only [labelPass, lastLabelAddr, ih]
    | error l => simp only [labelPass, lastLabelAddr, ih]

theorem countAC_nil : countAC [] = 0 := rfl

theorem countAC_cons_aInst (v : AValue) (rest : List Instruction) :
    countAC (.aInst v :: rest) = 1 + countAC rest := rfl

theorem countAC_cons_cInst (d c j : Str) (rest : List Instruction) :
    countAC (.cInst d c j :: rest) = 1 + countAC rest := rfl

theorem countAC_cons_lInst (v : Str) (rest : List Instruction) :
    countAC (.lInst v :: rest) = countAC rest := by simp [countAC, isAC]

theorem countAC_cons_empty (rest : List Instruction) :
    countAC (.empty :: rest) = countAC rest := by simp [countAC, isAC]

theorem countAC_cons_error (l : Str) (rest : List Instruction) :
    countAC (.error l :: rest) = countAC rest := by simp [countAC, isAC]

theorem lastLabelAddr_append (ys : List Instruction) :
    ∀ zs a s, lastLabelAddr (ys ++ zs) a s
      = match lastLabelAddr zs (a + countAC ys) s with
        | some n => some n
        | none => lastLabelAddr ys a s := by
  induction ys with
  | nil =>
    intro zs a s
    simp only [List.nil_append, countAC_nil, Nat.add_zero, lastLabelAddr]
    cases lastLabelAddr zs a s <;> rfl
  | cons i rest ih =>
    intro zs a s
    cases i with
    | lInst v =>
      simp only [List.cons_append, lastLabelAddr, List.append_eq,
        countAC_cons_lInst]
      rw [ih]
      cases lastLabelAddr zs (a + countAC rest) s <;> rfl
    | aInst w =>
      simp only [List.cons_append, lastLabelAddr, List.append_eq,
        countAC_cons_aInst]
      rw [ih]
      have h1 : a + 1 + countAC rest = a + (1 + countAC rest) := by omega
      rw [h1]
    | cInst d c j =>
      simp only [List.cons_append, lastLabelAddr, List.append_eq,
        countAC_cons_cInst]
      rw [ih]
      have h1 : a + 1 + countAC rest = a + (1 + countAC rest) := by omega
      rw [h1]
    | empty =>
      simp only [List.cons_append, lastLabelAddr, List.append_eq,
        countAC_cons_empty]
      rw [ih]
    | error l =>
      simp only [List.cons_append, lastLabelAddr, List.append_eq,
        countAC_cons_error]
      rw [ih]

theorem lastLabelAddr_none (xs : List Instruction) :
    ∀ a s, (∀ i ∈ xs, i ≠ Instruction.lInst s) → lastLabelAddr xs a s = none := by
  induction xs with
  | nil => intro a s _; rfl
  | cons i rest ih =>
    intro a s hno
    have hrest : ∀ j ∈ rest, j ≠ Instruction.lInst s :=
      fun j hj => hno j (List.mem_cons_of_mem _ hj)
    cases i with
    | lInst v =>
      have hsv : ¬s = v := by
        intro hs
        exact hno (.lInst v) (List.mem_cons_self _ _) (by rw [hs])
      simp only [lastLabelAddr]
      rw [ih _ _ hrest]
      simp [hsv]
    | aInst w => simp only [lastLabelAddr]; exact ih _ _ hrest
    | cInst d c j => simp only [lastLabelAddr]; exact ih _ _ hrest
    | empty => simp only [lastLabelAddr]; exact ih _ _ hrest
    | error l => simp only [lastLabelAddr]; exact ih _ _ hrest

/-- The label pass records, for a symbol whose last label declaration is
followed only by non-declarations of it, the count of address/compute
instructions before that declaration. -/
theorem labelPass_last_decl (ys zs : List Instruction) (s : Str) (t : SymTable)
    (hzs : ∀ i ∈ zs, i ≠ Instruction.lInst s) :
    labelPass (ys ++ .lInst s :: zs) 0 t s = some (countAC ys) := by
  rw [labelPass_eq, lastLabelAddr_append]
  have hz : lastLabelAddr zs (0 + countAC ys) s = none := lastLabelAddr_none _ _ _ hzs
  simp only [lastLabelAddr, hz]
  simp

theorem nvGo_congr (xs : List Instruction) :
    ∀ t₁ t₂ : SymTable, (∀ w, (t₁ w).isNone = (t₂ w).isNone) →
      nvGo t₁ xs = nvGo t₂ xs := by
  induction xs with
  | nil => intro t₁ t₂ _; rfl
  | cons i rest ih =>
    intro t₁ t₂ hdom
    cases i with
    | aInst v =>
      cases v with
      | num n => simp only [nvGo]; exact ih _ _ hdom
      | sym w =>
        simp only [nvGo, hdom w]
        by_cases hw : (t₂ w).isNone
        · simp only [hw, if_true]
          congr 1
          apply ih
          intro u
          simp only [tinsert]
          by_cases hu : u = w <;> simp [hu, hdom u]
        · simp only [hw, if_false]
          exact ih _ _ hdom
    | cInst d c j => simp only [nvGo]; exact ih _ _ hdom
    | lInst v => simp only [nvGo]; exact ih _ _ hdom
    | empty => simp only [nvGo]; exact ih _ _ hdom
    | error l => simp only [nvGo]; exact ih _ _ hdom

theorem mem_nvGo_isNone (xs : List Instruction) :
    ∀ t s, s ∈ nvGo t xs → t s = none := by
  induction xs with
  | nil => intro t s h; simp [nvGo] at h
  | cons i rest ih =>
    intro t s h
    cases i with
    | aInst v =>
      cases v with
      | num n => exact ih _ _ h
      | sym w =>
        simp only [nvGo] at h
        by_cases hw : (t w).isNone
        · rw [if_pos hw] at h
          rcases List.mem_cons.mp h with rfl | h
          · exact Option.isNone_iff_eq_none.mp hw
          · have := ih _ _ h
            simp only [tinsert] at this
            by_cases hsw : s = w
            · rw [if_pos hsw] at this; cases this
            · rwa [if_neg hsw] at this
        · rw [if_neg hw] at h
          exact ih _ _ h
    | cInst d c j => exact ih _ _ h
    | lInst v => exact ih _ _ h
    | empty => exact ih _ _ h
    | error l => exact ih _ _ h

theorem mem_nvGo_of_occurrence (xs : List Instruction) :
    ∀ t v, Instruction.aInst (.sym v) ∈ xs → (t v).isNone → v ∈ nvGo t xs := by
  induction xs with
  | nil => intro t v h _; cases h
  | cons i rest ih =>
    intro t v hocc hnone
    cases i with
    | aInst w =>
      cases w with
      | num n =>
        have htail : Instruction.aInst (.sym v) ∈ rest := by
          rcases List.mem_cons.mp hocc with hh | hh
          · cases hh
          · exact hh
        exact ih _ _ htail hnone
      | sym u =>
        simp only [nvGo]
        by_cases hu : (t u).isNone
        · rw [if_pos hu]
          by_cases hvu : v = u
          · exact hvu ▸ List.mem_cons_self _ _
          · have htail : Instruction.aInst (.sym v) ∈ rest := by
              rcases List.mem_cons.mp hocc with hh | hh
              · exact absurd hh (by simp [hvu])
              · exact hh
            refine List.mem_cons_of_mem _ (ih _ _ htail ?_)
            simp only [tinsert, if_neg hvu]
            exact hnone
        · rw [if_neg hu]
          have htail : Instruction.aInst (.sym v) ∈ rest := by
            rcases List.mem_cons.mp hocc with hh | hh
            · have hvu : v = u := by
                cases hh
                rfl
              rw [hvu] at hnone
              exact absurd hnone (by simpa using hu)
            · exact hh
          exact ih _ _ htail hnone
    | cInst d c j =>
      have htail : Instruction.aInst (.sym v) ∈ rest := by
        rcases List.mem_cons.mp hocc with hh | hh
        · cases hh
        · exact hh
      exact ih _ _ htail hnone
    | lInst w =>
      have htail : Instruction.aInst (.sym v) ∈ rest := by
        rcases List.mem_cons.mp hocc with hh | hh
        · cases hh
        · exact hh
      exact ih _ _ htail hnone
    | empty =>
      have htail : Instruction.aInst (.sym v) ∈ rest := by
        rcases List.mem_cons.mp hocc with hh | hh
        · cases hh
        · exact hh
      exact ih _ _ htail hnone
    | error l =>
      have htail : Instruction.aInst (.sym v) ∈ rest := by
        rcases List.mem_cons.mp hocc with hh | hh
        · cases hh
        · exact hh
      exact ih _ _ htail hnone

theorem idxInList_none (s : Str) :
    ∀ l, s ∉ l → idxInList s l = none := by
  intro l
  induction l with
  | nil => intro _; rfl
  | cons x rest ih =>
    intro h
    have hsx : ¬s = x := fun hs => h (hs ▸ List.mem_cons_self _ _)
    simp only [idxInList, if_neg hsx,
      ih (fun hm => h (List.mem_cons_of_mem _ hm))]
    rfl

theorem varPass_eq (xs : List Instruction) :
    ∀ t next s, varPass xs next t s
      = match idxInList s (nvGo t xs) with
        | some k => some (next + k)
        | none => t s := by
  induction xs with
  | nil => intro t next s; rfl
  | cons i rest ih =>
    intro t next s
    cases i with
    | aInst v =>
      cases v with
      | num n => simp only [varPass, nvGo]; exact ih t next s
      | sym w =>
        by_cases hw : (t w).isNone
        · simp only [varPass, nvGo, hw, if_true]
          rw [ih (tinsert t w next) (next + 1) s]
          have hsame : nvGo (tinsert t w next) rest = nvGo (tinsert t w 0) rest := by
            apply nvGo_congr
            intro u
            simp only [tinsert]
            by_cases hu : u = w <;> simp [hu]
          rw [hsame]
          by_cases hsw : s = w
          · subst hsw
            have hnm : s ∉ nvGo (tinsert t s 0) rest := by
              intro hm
              have := mem_nvGo_isNone _ _ _ hm
              simp [tinsert] at this
            rw [idxInList_none _ _ hnm]
            simp only [idxInList, if_pos rfl]
            simp [tinsert]
          · simp only [idxInList, if_neg hsw]
            cases hk : idxInList s (nvGo (tinsert t w 0) rest) with
            | some k =>
              have h1 : next + 1 + k = next + (k + 1) := by omega
              simp [hk, h1]
            | none =>
              simp [hk, tinsert, hsw]
        · simp only [varPass, nvGo, hw, if_false]
          exact ih t next s
    | cInst d c j => simp only [varPass, nvGo]; exact ih t next s
    | lInst v => simp only [varPass, nvGo]; exact ih t next s
    | empty => simp only [varPass, nvGo]; exact ih t next s
    | error l => simp only [varPass, nvGo]; exact ih t next s

theorem mem_nvGo_occurrence (xs : List Instruction) :
    ∀ t s, s ∈ nvGo t xs → Instruction.aInst (.sym s) ∈ xs := by
  induction xs with
  | nil => intro t s h; simp [nvGo] at h
  | cons i rest ih =>
    intro t s h
    cases i with
    | aInst v =>
      cases v with
      | num n => exact List.mem_cons_of_mem _ (ih _ _ h)
      | sym w =>
        simp only [nvGo] at h
        by_cases hw : (t w).isNone
        · rw [if_pos hw] at h
          rcases List.mem_cons.mp h with rfl | h
          · exact List.mem_cons_self _ _
          · exact List.mem_cons_of_mem _ (ih _ _ h)
        · rw [if_neg hw] at h
          exact List.mem_cons_of_mem _ (ih _ _ h)
    | cInst d c j => exact List.mem_cons_of_mem _ (ih _ _ h)
    | lInst v => exact List.mem_cons_of_mem _ (ih _ _ h)
    | empty => exact List.mem_cons_of_mem _ (ih _ _ h)
    | error l => exact List.mem_cons_of_mem _ (ih _ _ h)

theorem idxInList_isSome_of_mem (s : Str) :
    ∀ l, s ∈ l → ∃ k, idxInList s l = some k := by
  intro l
  induction l with
  | nil => intro h; cases h
  | cons x rest ih =>
    intro h
    by_cases hsx : s = x
    · exact ⟨0, by simp [idxInList, hsx]⟩
    · obtain ⟨k, hk⟩ := ih ((List.mem_cons.mp h).resolve_left hsx)
      exact ⟨k + 1, by simp [idxInList, hsx, hk]⟩

/-- The full symbol table at a symbol whose textually last label
declaration is followed by no other declaration of it: the count of
address/compute instructions preceding that declaration. -/
theorem analyzeSymbols_last_label (ys zs : List Instruction) (s : Str)
    (hzs : ∀ i ∈ zs, i ≠ Instruction.lInst s) :
    AnalyzeSymbols (ys ++ .lInst s :: zs) s = some (countAC ys) := by
  have htL : labelPass (ys ++ .lInst s :: zs) 0 InitialSymbolTable s
      = some (countAC ys) := labelPass_last_decl ys zs s _ hzs
  unfold AnalyzeSymbols
  rw [varPass_eq]
  have hnm : s ∉ nvGo (labelPass (ys ++ .lInst s :: zs) 0 InitialSymbolTable)
      (ys ++ .lInst s :: zs) := by
    intro hm
    rw [mem_nvGo_isNone _ _ _ hm] at htL
    cases htL
  rw [idxInList_none _ _ hnm]
  exact htL

/-- C2 (amended): the symbol table maps (a) each label symbol to the
number of address/compute instructions preceding its textually *last*
declaration, and (b) each symbol in the fresh-variable list (the first
occurrences of symbolic address values not present after the label pass)
to sequentially increasing addresses starting at 16; (b') a symbol is a
fresh variable exactly when it occurs as a symbolic address value and is
absent from the table left by the label pass — so a symbol declared as a
label is never allocated as a variable, and repeated references to the
same undeclared symbol resolve to one address. -/
theorem symbol_table_construction (xs : List Instruction) :
    (∀ s ys zs, xs = ys ++ .lInst s :: zs →
      (∀ i ∈ zs, i ≠ Instruction.lInst s) →
      AnalyzeSymbols xs s = some (countAC ys)) ∧
    (∀ s k, idxInList s (newVars xs) = some k →
      AnalyzeSymbols xs s = some (16 + k)) ∧
    (∀ s, s ∈ newVars xs ↔
      Instruction.aInst (.sym s) ∈ xs ∧
      labelPass xs 0 InitialSymbolTable s = none) := by
  refine ⟨?_, ?_, ?_⟩
  · intro s ys zs hsplit hzs
    rw [hsplit]
    exact analyzeSymbols_last_label ys zs s hzs
  · intro s k hidx
    unfold AnalyzeSymbols
    rw [varPass_eq]
    rw [newVars] at hidx
    rw [hidx]
  · intro s
    constructor
    · intro hm
      exact ⟨mem_nvGo_occurrence _ _ _ hm, mem_nvGo_isNone _ _ _ hm⟩
    · intro ⟨hocc, hnone⟩
      exact mem_nvGo_of_occurrence _ _ _ hocc (by simp [hnone])

/-- C2 witness: in `[(L), @x]` the label `L` gets address 0 (no
address/compute instruction precedes it), and `x` is the first fresh
variable, allocated at 16. -/
theorem symbol_table_construction_witness :
    AnalyzeSymbols [Instruction.lInst "L".data, .aInst (.sym "x".data)]
        "L".data = some (countAC ([] : List Instruction)) ∧
    AnalyzeSymbols [Instruction.lInst "L".data, .aInst (.sym "x".data)]
        "x".data = some (16 + 0) :=
  ⟨(symbol_table_construction _).1 "L".data []
      [Instruction.aInst (.sym "x".data)] rfl (by decide),
   (symbol_table_construction _).2.1 "x".data 0 (by decide)⟩

/-- C2 counterexample: the claim as stated demands that *every* label
declaration's symbol map to the count of address/compute instructions
preceding *it*; with the same label declared twice this fails — in
`[(L), D=A, (L)]` the first declaration of `L` is preceded by zero
address/compute instructions, yet the table maps `L` to 1 (the later
declaration overwrote it). -/
theorem symbol_table_construction_counterexample :
    ¬ (∀ s ys zs,
        ([Instruction.lInst "L".data, .cInst "D".data "A".data [],
          .lInst "L".data] : List Instruction) = ys ++ .lInst s :: zs →
        AnalyzeSymbols [Instruction.lInst "L".data,
          .cInst "D".data "A".data [], .lInst "L".data] s
          = some (countAC ys)) := by
  intro h
  have h0 := h "L".data []
    [Instruction.cInst "D".data "A".data [], .lInst "L".data] rfl
  have : countAC ([] : List Instruction) = 0 := rfl
  rw [this] at h0
  have hval : AnalyzeSymbols [Instruction.lInst "L".data,
      .cInst "D".data "A".data [], .lInst "L".data] "L".data = some 1 := by
    decide
  rw [hval] at h0
  cases h0

/-- C10: when the same label symbol is declared twice (or more), the
table maps it to the instruction address of the textually last
declaration. -/
theorem duplicate_label_last_wins (xs : List Instruction) (s : Str)
    (ys zs ws : List Instruction)
    (hsplit : xs = ys ++ .lInst s :: zs ++ .lInst s :: ws)
    (hws : ∀ i ∈ ws, i ≠ Instruction.lInst s) :
    AnalyzeSymbols xs s = some (countAC (ys ++ .lInst s :: zs)) := by
  have hassoc : ys ++ .lInst s :: zs ++ .lInst s :: ws
      = (ys ++ .lInst s :: zs) ++ .lInst s :: ws := by
    simp [List.append_assoc]
  rw [hsplit, hassoc]
  exact analyzeSymbols_last_label _ _ _ hws

/-- C10 witness: in `[(LOOP), D=A, (LOOP)]` the symbol resolves to the
address of the second declaration, 1. -/
theorem duplicate_label_last_wins_witness :
    AnalyzeSymbols [Instruction.lInst "LOOP".data,
        .cInst "D".data "A".data [], .lInst "LOOP".data] "LOOP".data
      = some (countAC ([Instruction.lInst "LOOP".data,
          .cInst "D".data "A".data []] : List Instruction)) :=
  duplicate_label_last_wins _ "LOOP".data []
    [Instruction.cInst "D".data "A".data []] [] rfl (by decide)

/-! ## Lemmas about the symbol eliminator -/

theorem lookup_isSome_of_occurrence (xs : List Instruction) (v : Str)
    (hocc : Instruction.aInst (.sym v) ∈ xs) :
    (AnalyzeSymbols xs v).isSome := by
  unfold AnalyzeSymbols
  rw [varPass_eq]
  by_cases hL : (labelPass xs 0 InitialSymbolTable v).isNone
  · obtain ⟨k, hk⟩ := idxInList_isSome_of_mem v _
      (mem_nvGo_of_occurrence xs _ v hocc hL)
    rw [hk]
    rfl
  · cases hidx : idxInList v (nvGo (labelPass xs 0 InitialSymbolTable) xs) with
    | some k => rfl
    | none =>
      show (labelPass xs 0 InitialSymbolTable v).isSome = true
      rw [Option.isSome_iff_ne_none]
      simpa using hL

theorem stripWith_eq_filterMap (xs : List Instruction) :
    ∀ t : SymTable, (∀ v, Instruction.aInst (.sym v) ∈ xs → (t v).isSome) →
      stripWith t xs = some (xs.filterMap (resolveOne t)) := by
  induction xs with
  | nil => intro t _; rfl
  | cons i rest ih =>
    intro t hyp
    have hrest : ∀ v, Instruction.aInst (.sym v) ∈ rest → (t v).isSome :=
      fun v hv => hyp v (List.mem_cons_of_mem _ hv)
    cases i with
    | aInst w =>
      cases w with
      | num n =>
        simp only [stripWith, List.filterMap_cons, resolveOne, ih t hrest]
        rfl
      | sym v =>
        obtain ⟨n, hn⟩ := Option.isSome_iff_exists.mp
          (hyp v (List.mem_cons_self _ _))
        simp only [stripWith, hn, List.filterMap_cons, resolveOne,
          ih t hrest]
        rfl
    | cInst d c j =>
      simp only [stripWith, List.filterMap_cons, resolveOne, ih t hrest]
      rfl
    | lInst v =>
      simp only [stripWith, List.filterMap_cons, resolveOne, ih t hrest]
    | empty =>
      simp only [stripWith, List.filterMap_cons, resolveOne, ih t hrest]
    | error l =>
      simp only [stripWith, List.filterMap_cons, resolveOne, ih t hrest]

theorem filterMap_resolve_length (xs : List Instruction) :
    ∀ t : SymTable, (∀ v, Instruction.aInst (.sym v) ∈ xs → (t v).isSome) →
      (xs.filterMap (resolveOne t)).length = countAC xs := by
  induction xs with
  | nil => intro t _; rfl
  | cons i rest ih =>
    intro t hyp
    have hrest : ∀ v, Instruction.aInst (.sym v) ∈ rest → (t v).isSome :=
      fun v hv => hyp v (List.mem_cons_of_mem _ hv)
    cases i with
    | aInst w =>
      cases w with
      | num n =>
        simp only [List.filterMap_cons, resolveOne, List.length_cons,
          ih t hrest, countAC_cons_aInst]
        omega
      | sym v =>
        obtain ⟨n, hn⟩ := Option.isSome_iff_exists.mp
          (hyp v (List.mem_cons_self _ _))
        simp only [List.filterMap_cons, resolveOne, hn, Option.map_some',
          List.length_cons, ih t hrest, countAC_cons_aInst]
        omega
    | cInst d c j =>
      simp only [List.filterMap_cons, resolveOne, List.length_cons,
        ih t hrest, countAC_cons_cInst]
      omega
    | lInst v =>
      simp only [List.filterMap_cons, resolveOne, ih t hrest,
        countAC_cons_lInst]
    | empty =>
      simp only [List.filterMap_cons, resolveOne, ih t hrest,
        countAC_cons_empty]
    | error l =>
      simp only [List.filterMap_cons, resolveOne, ih t hrest,
        countAC_cons_error]

/-- C3: the symbol eliminator cannot fail and returns exactly the address
and compute instructions of the input in order — symbolic address values
replaced by their symbol-table entry, integer-literal address
instructions and compute instructions unchanged, labels and blanks
dropped — so the output length is the number of address plus compute
instructions of the input. -/
theorem strip_symbols_spec (xs : List Instruction) :
    StripSymbols xs
      = some (xs.filterMap (resolveOne (AnalyzeSymbols xs))) ∧
    (xs.filterMap (resolveOne (AnalyzeSymbols xs))).length = countAC xs := by
  have hyp : ∀ v, Instruction.aInst (.sym v) ∈ xs →
      ((AnalyzeSymbols xs) v).isSome :=
    fun v hv => lookup_isSome_of_occurrence xs v hv
  exact ⟨stripWith_eq_filterMap xs _ hyp, filterMap_resolve_length xs _ hyp⟩

theorem mem_resolved_shape (xs : List Instruction) (t : SymTable)
    (i : Instruction) (h : i ∈ xs.filterMap (resolveOne t)) :
    (∃ n, i = .aInst (.num n)) ∨ ∃ d c j, i = .cInst d c j := by
  obtain ⟨a, _, hr⟩ := List.mem_filterMap.mp h
  cases a with
  | aInst w =>
    cases w with
    | num n =>
      left
      exact ⟨n, (Option.some.inj hr).symm⟩
    | sym v =>
      simp only [resolveOne] at hr
      cases ht : t v with
      | none => rw [ht] at hr; simp at hr
      | some n =>
        rw [ht] at hr
        simp only [Option.map_some'] at hr
        left
        exact ⟨n, (Option.some.inj hr).symm⟩
  | cInst d c j =>
    right
    exact ⟨d, c, j, (Option.some.inj hr).symm⟩
  | lInst v => cases hr
  | empty => cases hr
  | error l => cases hr

theorem stripWith_id (ys : List Instruction) :
    ∀ t : SymTable,
      (∀ i ∈ ys, (∃ n, i = Instruction.aInst (.num n)) ∨
        ∃ d c j, i = Instruction.cInst d c j) →
      stripWith t ys = some ys := by
  induction ys with
  | nil => intro t _; rfl
  | cons i rest ih =>
    intro t hyp
    have hrest := fun j hj => hyp j (List.mem_cons_of_mem _ hj)
    rcases hyp i (List.mem_cons_self _ _) with ⟨n, rfl⟩ | ⟨d, c, j, rfl⟩
    · simp [stripWith, ih t hrest]
    · simp [stripWith, ih t hrest]

/-- C9: symbol elimination is idempotent — applying the symbol eliminator
to its own output is a no-op. -/
theorem strip_symbols_idempotent (xs : List Instruction) :
    (StripSymbols xs).bind StripSymbols = StripSymbols xs := by
  have hyp : ∀ v, Instruction.aInst (.sym v) ∈ xs →
      ((AnalyzeSymbols xs) v).isSome :=
    fun v hv => lookup_isSome_of_occurrence xs v hv
  have h1 : StripSymbols xs
      = some (xs.filterMap (resolveOne (AnalyzeSymbols xs))) :=
    stripWith_eq_filterMap xs _ hyp
  rw [h1]
  show StripSymbols (xs.filterMap (resolveOne (AnalyzeSymbols xs)))
    = some (xs.filterMap (resolveOne (AnalyzeSymbols xs)))
  unfold StripSymbols
  rw [stripWith_id _ _
    (fun i hi => mem_resolved_shape xs (AnalyzeSymbols xs) i hi)]

/-! ## The address grammar -/

theorem AInstruction.ParseStripped_isSome_iff (s : Str) :
    (AInstruction.ParseStripped s).isSome = aGrammarOk s := by
  cases s with
  | nil => rfl
  | cons c rest =>
    simp only [AInstruction.ParseStripped, aGrammarOk]
    by_cases hc : c = '@'
    · rw [if_pos hc, if_pos hc]
      by_cases hd : rest.all Char.isDigit
      · rw [if_pos hd]
        by_cases he : rest.isEmpty
        · simp [hd, he]
        · by_cases hlt : digitsToNat rest < 2 ^ 15
          · simp only [if_pos hlt]
            simp [hd, he]
            exact hlt
          · simp only [if_neg hlt]
            simp [hd, he]
            exact Nat.le_of_not_lt hlt
      · rw [if_neg hd]
        by_cases hs : isSymbolStr rest
        · simp [hd, hs]
        · simp [hd, hs]
    · rw [if_neg hc, if_neg hc]
      rfl

theorem comp_head_ne (c : Str) (hc : c ∈ compAlternatives) :
    c.head? ≠ some '@' := by
  have hall : compAlternatives.all (fun w => w.head? != some '@') = true := by
    decide
  have := List.all_eq_true.mp hall c hc
  simpa using this

theorem dest_head_ne (d : Str) (hd : d ∈ destMnemonics) :
    d.head? ≠ some '@' := by
  have hall : destMnemonics.all (fun w => w.head? != some '@') = true := by
    decide
  have := List.all_eq_true.mp hall d hd
  simpa using this

theorem splitAtFirst_some_head (sep c : Char) (cs d r : Str)
    (hne : ¬c = sep) (h : splitAtFirst sep (c :: cs) = some (d, r)) :
    ∃ d₁, d = c :: d₁ := by
  unfold splitAtFirst at h
  rw [if_neg hne] at h
  cases hs : splitAtFirst sep cs with
  | some p =>
    rw [hs] at h
    simp only [Option.map_some'] at h
    exact ⟨p.1, by cases h; rfl⟩
  | none =>
    rw [hs] at h
    cases h

theorem splitAtFirst_none_cons (sep c : Char) (cs : Str)
    (hne : ¬c = sep) (h : splitAtFirst sep cs = none) :
    splitAtFirst sep (c :: cs) = none := by
  unfold splitAtFirst
  rw [if_neg hne, h]
  rfl

theorem CInstruction.ParseCompJump_at_sign (rest : Str) :
    CInstruction.ParseCompJump [] ('@' :: rest) = none := by
  unfold CInstruction.ParseCompJump
  split
  · rename_i c j heq
    obtain ⟨c₁, rfl⟩ :=
      splitAtFirst_some_head ';' '@' rest c j (by decide) heq
    rw [if_neg]
    rintro ⟨hcm, _⟩
    exact comp_head_ne _ hcm rfl
  · rw [if_neg]
    intro hmem
    exact comp_head_ne _ hmem rfl

theorem cParseStripped_at_sign (rest : Str) :
    CInstruction.ParseStripped ('@' :: rest) = none := by
  unfold CInstruction.ParseStripped
  split
  · rename_i d r heq
    obtain ⟨d₁, rfl⟩ :=
      splitAtFirst_some_head '=' '@' rest d r (by decide) heq
    rw [if_neg]
    intro hmem
    exact dest_head_ne _ hmem rfl
  · exact CInstruction.ParseCompJump_at_sign rest

theorem lParseStripped_at_sign (rest : Str) :
    LInstruction.ParseStripped ('@' :: rest) = none := by
  simp only [LInstruction.ParseStripped]
  rw [if_neg (by decide : ¬('@' : Char) = '(')]

theorem parseInstruction_of_parseA_none (line : Str)
    (h : AInstruction.Parse line = none) :
    ∀ v, ParseInstruction line ≠ .aInst v := by
  intro v
  unfold ParseInstruction
  rw [h]
  cases hc : CInstruction.Parse line with
  | some i =>
    obtain ⟨d, c, j, rfl⟩ := cParseStripped_shape _ _ hc
    intro hh
    cases hh
  | none =>
    cases hl : LInstruction.Parse line with
    | some i =>
      obtain ⟨w, rfl⟩ := lParseStripped_shape _ _ hl
      intro hh
      cases hh
    | none =>
      cases he : EmptyInstruction.Parse line with
      | some i =>
        rw [EmptyInstruction.Parse_shape _ _ he]
        intro hh
        cases hh
      | none =>
        intro hh
        cases hh

/-- C7 (amended): a line is classified as an Address instruction iff,
after comment stripping and whitespace trimming, it is `@` followed by a
digit string that is empty or has value below `2^15`, or by a symbol
name — the empty tail matches because the regex digit alternative is
`\d*`, yielding a symbolic Address holding the empty name.  Every other
line whose stripped form begins with `@` — including digit-only literals
at or above `2^15` — falls through to the Error classification, carrying
the original line. -/
theorem address_grammar_classification (line : Str) :
    ((∃ v, ParseInstruction line = .aInst v) ↔
      aGrammarOk (PyStrip (RemoveTrailingComment line)) = true) ∧
    (∀ rest, PyStrip (RemoveTrailingComment line) = '@' :: rest →
      aGrammarOk ('@' :: rest) = false →
      ParseInstruction line = .error line) := by
  have hiff : (AInstruction.Parse line).isSome
      = aGrammarOk (PyStrip (RemoveTrailingComment line)) :=
    AInstruction.ParseStripped_isSome_iff _
  constructor
  · constructor
    · rintro ⟨v, hv⟩
      by_contra hng
      have hfalse : aGrammarOk (PyStrip (RemoveTrailingComment line)) = false :=
        Bool.eq_false_iff.mpr hng
      have hnone : AInstruction.Parse line = none := by
        rw [← Option.not_isSome_iff_eq_none, hiff, hfalse]
        simp
      exact parseInstruction_of_parseA_none line hnone v hv
    · intro hok
      rw [← hiff] at hok
      obtain ⟨i, hi⟩ := Option.isSome_iff_exists.mp hok
      obtain ⟨v, rfl⟩ := aParseStripped_shape _ _ hi
      refine ⟨v, ?_⟩
      unfold ParseInstruction
      rw [hi]
  · intro rest hrest hng
    have hA : AInstruction.Parse line = none := by
      rw [← Option.not_isSome_iff_eq_none, hiff, hrest, hng]
      simp
    have hC : CInstruction.Parse line = none := by
      unfold CInstruction.Parse
      rw [hrest]
      exact cParseStripped_at_sign rest
    have hL : LInstruction.Parse line = none := by
      unfold LInstruction.Parse
      rw [hrest]
      exact lParseStripped_at_sign rest
    have hE : EmptyInstruction.Parse line = none := by
      unfold EmptyInstruction.Parse
      rw [hrest]
      simp
    unfold ParseInstruction
    rw [hA, hC, hL, hE]

/-- C7 counterexample: the claim says a bare `@` does not match the
Address grammar and falls through to Error; in fact the `\d*` alternative
matches the empty tail and the line is classified as a symbolic Address
instruction holding the empty name (which is not a symbol: the symbol
grammar requires at least one character). -/
theorem address_grammar_counterexample :
    ParseInstruction "@".data = .aInst (.sym []) ∧
    isSymbolStr [] = false ∧ ([] : Str).isEmpty = true := by
  refine ⟨by decide, rfl, rfl⟩

/-- C7 witness: `@123456789` (value at least `2^15`) strips to itself,
fails the grammar, and is classified as an Error instruction. -/
theorem address_grammar_classification_witness :
    ParseInstruction "@123456789".data = .error "@123456789".data :=
  (address_grammar_classification "@123456789".data).2 "123456789".data
    (by decide) (by decide)

/-! ## Bounds on resolved addresses -/

theorem Parse_ok_eq (lines : List Str) (xs : List Instruction)
    (h : Parse lines = .ok xs) : xs = lines.map ParseInstruction := by
  unfold Parse at h
  split at h
  · exact (Except.ok.inj h).symm
  · cases h

theorem AInstruction.ParseStripped_num_lt (s : Str) (n : Nat)
    (h : AInstruction.ParseStripped s = some (.aInst (.num n))) :
    n < 2 ^ 15 := by
  cases s with
  | nil => cases h
  | cons c rest =>
    simp only [AInstruction.ParseStripped] at h
    repeat' split at h
    all_goals cases h
    assumption

theorem ParseInstruction_num_lt (l : Str) (n : Nat)
    (h : ParseInstruction l = .aInst (.num n)) : n < 2 ^ 15 := by
  cases hA : AInstruction.Parse l with
  | none => exact absurd h (parseInstruction_of_parseA_none l hA _)
  | some i =>
    have hi : ParseInstruction l = i := by
      unfold ParseInstruction
      rw [hA]
    rw [h] at hi
    rw [← hi] at hA
    exact AInstruction.ParseStripped_num_lt _ n hA

theorem baseTable_bound (s : Str) (n : Nat) (h : baseTable s = some n) :
    n ≤ 24576 := by
  simp only [baseTable, tinsert, emptyTable] at h
  repeat' split at h
  all_goals cases h
  all_goals decide

theorem foldl_tinsert_bound (B : Nat) (key : Nat → Str) :
    ∀ (l : List Nat) (t : SymTable),
      (∀ s n, t s = some n → n ≤ B) → (∀ i ∈ l, i ≤ B) →
      ∀ s n, (l.foldl (fun acc i => tinsert acc (key i) i) t) s = some n →
        n ≤ B := by
  intro l
  induction l with
  | nil => intro t ht _ s n h; exact ht s n h
  | cons i rest ih =>
    intro t ht hl s n h
    simp only [List.foldl_cons] at h
    refine ih (tinsert t (key i) i) ?_
      (fun j hj => hl j (List.mem_cons_of_mem _ hj)) s n h
    intro s' n' h'
    simp only [tinsert] at h'
    split at h'
    · cases h'
      exact hl i (List.mem_cons_self _ _)
    · exact ht s' n' h'

theorem initialSymbolTable_bound (s : Str) (n : Nat)
    (h : InitialSymbolTable s = some n) : n ≤ 24576 := by
  refine foldl_tinsert_bound 24576 _ (List.range 16) baseTable
    baseTable_bound ?_ s n h
  intro i hi
  have := List.mem_range.mp hi
  omega

theorem labelPass_bound (xs : List Instruction) :
    ∀ a (t : SymTable) s n, labelPass xs a t s = some n →
      t s = some n ∨ n < a + xs.length := by
  induction xs with
  | nil => intro a t s n h; exact Or.inl h
  | cons i rest ih =>
    intro a t s n h
    cases i with
    | lInst v =>
      rcases ih a _ s n h with h1 | h1
      · simp only [tinsert] at h1
        split at h1
        · cases h1
          right
          simp only [List.length_cons]
          omega
        · exact Or.inl h1
      · right
        simp only [List.length_cons]
        omega
    | aInst w =>
      rcases ih (a + 1) t s n h with h1 | h1
      · exact Or.inl h1
      · right
        simp only [List.length_cons]
        omega
    | cInst d c j =>
      rcases ih (a + 1) t s n h with h1 | h1
      · exact Or.inl h1
      · right
        simp only [List.length_cons]
        omega
    | empty =>
      rcases ih a t s n h with h1 | h1
      · exact Or.inl h1
      · right
        simp only [List.length_cons]
        omega
    | error l =>
      rcases ih a t s n h with h1 | h1
      · exact Or.inl h1
      · right
        simp only [List.length_cons]
        omega

theorem varPass_bound (xs : List Instruction) :
    ∀ next (t : SymTable) s n, varPass xs next t s = some n →
      t s = some n ∨ (next ≤ n ∧ n < next + xs.length) := by
  induction xs with
  | nil => intro next t s n h; exact Or.inl h
  | cons i rest ih =>
    intro next t s n h
    have hlen : (i :: rest).length = rest.length + 1 := rfl
    cases i with
    | aInst w =>
      cases w with
      | sym v =>
        simp only [varPass] at h
        split at h
        · rcases ih (next + 1) _ s n h with h1 | h1
          · simp only [tinsert] at h1
            split at h1
            · cases h1
              right
              rw [hlen]
              omega
            · exact Or.inl h1
          · right
            rw [hlen]
            omega
        · rcases ih next t s n h with h1 | h1
          · exact Or.inl h1
          · right
            rw [hlen]
            omega
      | num m =>
        rcases ih next t s n h with h1 | h1
        · exact Or.inl h1
        · right
          rw [hlen]
          omega
    | cInst d c j =>
      rcases ih next t s n h with h1 | h1
      · exact Or.inl h1
      · right
        rw [hlen]
        omega
    | lInst v =>
      rcases ih next t s n h with h1 | h1
      · exact Or.inl h1
      · right
        rw [hlen]
        omega
    | empty =>
      rcases ih next t s n h with h1 | h1
      · exact Or.inl h1
      · right
        rw [hlen]
        omega
    | error l =>
      rcases ih next t s n h with h1 | h1
      · exact Or.inl h1
      · right
        rw [hlen]
        omega

theorem analyzeSymbols_bound (xs : List Instruction) (s : Str) (n : Nat)
    (h : AnalyzeSymbols xs s = some n) (hlen : xs.length + 16 ≤ 2 ^ 15) :
    n < 2 ^ 15 := by
  unfold AnalyzeSymbols at h
  rcases varPass_bound xs 16 _ s n h with h1 | h1
  · rcases labelPass_bound xs 0 _ s n h1 with h2 | h2
    · have := initialSymbolTable_bound s n h2
      omega
    · omega
  · omega

/-- C8 (amended): for every error-free input program of at most
`2^15 - 16` lines, every Address instruction in the symbol eliminator's
output holds an integer value in `[0, 2^15)` — literals are bounded by
the parser, label addresses by the instruction count, and variable
addresses by `16` plus the variable count. -/
theorem resolved_addresses_bounded (lines : List Str)
    (xs ys : List Instruction) (hp : Parse lines = .ok xs)
    (hlen : lines.length + 16 ≤ 2 ^ 15) (hs : StripSymbols xs = some ys) :
    ∀ v, Instruction.aInst v ∈ ys → ∃ n, v = .num n ∧ n < 2 ^ 15 := by
  have hxs : xs = lines.map ParseInstruction := Parse_ok_eq lines xs hp
  have hxlen : xs.length + 16 ≤ 2 ^ 15 := by
    rw [hxs, List.length_map]
    exact hlen
  have hyp : ∀ w, Instruction.aInst (.sym w) ∈ xs →
      ((AnalyzeSymbols xs) w).isSome :=
    fun w hw => lookup_isSome_of_occurrence xs w hw
  have h1 : StripSymbols xs
      = some (xs.filterMap (resolveOne (AnalyzeSymbols xs))) :=
    stripWith_eq_filterMap xs _ hyp
  rw [hs] at h1
  intro v hv
  rw [Option.some.inj h1] at hv
  obtain ⟨a, ha, hr⟩ := List.mem_filterMap.mp hv
  cases a with
  | aInst w =>
    cases w with
    | num m =>
      have hvm : v = AValue.num m := by
        have := Option.some.inj hr
        cases this
        rfl
      obtain ⟨l, hl, hpl⟩ := List.mem_map.mp (hxs ▸ ha)
      exact ⟨m, hvm, ParseInstruction_num_lt l m hpl⟩
    | sym w =>
      simp only [resolveOne] at hr
      cases ht : AnalyzeSymbols xs w with
      | none => rw [ht] at hr; simp at hr
      | some m =>
        rw [ht] at hr
        simp only [Option.map_some'] at hr
        have hvm : v = AValue.num m := by
          have := Option.some.inj hr
          cases this
          rfl
        exact ⟨m, hvm, analyzeSymbols_bound xs w m ht hxlen⟩
  | cInst d c j =>
    have := Option.some.inj hr
    cases this
  | lInst w => cases hr
  | empty => cases hr
  | error l => cases hr

/-- C8 witness: the one-line program `@x` resolves `x` to address 16,
which lies below `2^15`. -/
theorem resolved_addresses_bounded_witness :
    ∃ n, AValue.num 16 = AValue.num n ∧ n < 2 ^ 15 :=
  resolved_addresses_bounded ["@x".data] [.aInst (.sym "x".data)]
    [.aInst (.num 16)] (by decide) (by decide) (by decide)
    (.num 16) (by decide)

theorem collectErrors_eq_nil (insts : List Instruction) :
    ∀ k, (∀ i ∈ insts, isErrorInst i = false) → collectErrors k insts = [] := by
  induction insts with
  | nil => intro k _; rfl
  | cons i rest ih =>
    intro k hall
    have hrest := fun j hj => hall j (List.mem_cons_of_mem _ hj)
    cases i with
    | error l =>
      have := hall (.error l) (List.mem_cons_self _ _)
      simp [isErrorInst] at this
    | aInst v => exact ih (k + 1) hrest
    | cInst d c j => exact ih (k + 1) hrest
    | lInst v => exact ih (k + 1) hrest
    | empty => exact ih (k + 1) hrest

theorem labelPass_replicate_cInst (d c j : Str) (ys : List Instruction) :
    ∀ k a t, labelPass (List.replicate k (.cInst d c j) ++ ys) a t
      = labelPass ys (a + k) t := by
  intro k
  induction k with
  | zero => intro a t; simp [List.replicate]
  | succ k ih =>
    intro a t
    rw [List.replicate_succ, List.cons_append]
    show labelPass (List.replicate k (.cInst d c j) ++ ys) (a + 1) t
      = labelPass ys (a + (k + 1)) t
    rw [ih (a + 1)]
    have h2 : a + 1 + k = a + (k + 1) := by omega
    rw [h2]

theorem varPass_replicate_cInst (d c j : Str) (ys : List Instruction) :
    ∀ k next t, varPass (List.replicate k (.cInst d c j) ++ ys) next t
      = varPass ys next t := by
  intro k
  induction k with
  | zero => intro next t; simp [List.replicate]
  | succ k ih =>
    intro next t
    rw [List.replicate_succ, List.cons_append]
    show varPass (List.replicate k (.cInst d c j) ++ ys) next t
      = varPass ys next t
    exact ih next t

theorem stripWith_replicate_cInst (d c j : Str) (ys : List Instruction) :
    ∀ k t, stripWith t (List.replicate k (.cInst d c j) ++ ys)
      = (stripWith t ys).map
          (fun zs => List.replicate k (.cInst d c j) ++ zs) := by
  intro k
  induction k with
  | zero =>
    intro t
    simp only [List.replicate, List.nil_append]
    cases stripWith t ys <;> simp
  | succ k ih =>
    intro t
    rw [List.replicate_succ, List.cons_append]
    show (stripWith t (List.replicate k (.cInst d c j) ++ ys)).map
        (fun zs => .cInst d c j :: zs) = _
    rw [ih t]
    cases stripWith t ys <;> simp [List.replicate_succ]

theorem overflow_map :
    overflowLines.map ParseInstruction = overflowParsed := by
  unfold overflowLines overflowParsed
  rw [List.map_append, List.map_replicate]
  have h1 : ParseInstruction "D=A".data = .cInst "D".data "A".data [] := by
    decide
  have h2 : ParseInstruction "(L)".data = .lInst "L".data := by decide
  have h3 : ParseInstruction "@L".data = .aInst (.sym "L".data) := by decide
  rw [List.map_cons, List.map_cons, List.map_nil, h1, h2, h3]

theorem overflow_parse : Parse overflowLines = .ok overflowParsed := by
  unfold Parse
  rw [overflow_map]
  have hnil : collectErrors 1 overflowParsed = [] := by
    refine collectErrors_eq_nil _ 1 ?_
    intro i hi
    unfold overflowParsed at hi
    rcases List.mem_append.mp hi with hrep | hpair
    · rw [List.eq_of_mem_replicate hrep]
      rfl
    · rcases List.mem_cons.mp hpair with rfl | hpair
      · rfl
      · rcases List.mem_cons.mp hpair with rfl | hpair
        · rfl
        · cases hpair
  rw [hnil]
  rfl

theorem overflow_table : AnalyzeSymbols overflowParsed
    = tinsert InitialSymbolTable "L".data 32768 := by
  unfold AnalyzeSymbols overflowParsed
  rw [labelPass_replicate_cInst, varPass_replicate_cInst]
  rfl

theorem overflow_strip : StripSymbols overflowParsed = some overflowOut := by
  unfold StripSymbols
  rw [overflow_table]
  unfold overflowParsed overflowOut
  rw [stripWith_replicate_cInst]
  have hsmall : stripWith (tinsert InitialSymbolTable "L".data 32768)
      [Instruction.lInst "L".data, .aInst (.sym "L".data)]
      = some [Instruction.aInst (.num 32768)] := rfl
  rw [hsmall]
  rfl

/-- C8 counterexample: the claim as stated has no bound on the program
size; this error-free program of `2^15 + 2` lines resolves its label to
the address `2^15 = 32768`, which is outside `[0, 2^15)` (its encoding
would even collide with the `@0` instruction, since only 15 value bits
are emitted). -/
theorem resolved_addresses_counterexample :
    Parse overflowLines = .ok overflowParsed ∧
    StripSymbols overflowParsed = some overflowOut ∧
    Instruction.aInst (.num 32768) ∈ overflowOut ∧
    ¬(32768 < 2 ^ 15) := by
  refine ⟨overflow_parse, overflow_strip, ?_, by decide⟩
  unfold overflowOut
  exact List.mem_append_right _ (List.mem_cons_self _ _)

/-! ## Concrete evaluations mirroring the repository's test suite -/

theorem eval_classifier :
    ParseInstruction "@123".data = .aInst (.num 123) ∧
    ParseInstruction "@llama".data = .aInst (.sym "llama".data) ∧
    ParseInstruction "@123456789".data = .error "@123456789".data ∧
    ParseInstruction "@1llama".data = .error "@1llama".data ∧
    ParseInstruction "D=M;JMP".data = .cInst "D".data "M".data "JMP".data ∧
    ParseInstruction "M=M+1".data = .cInst "M".data "M+1".data [] ∧
    ParseInstruction "0;JMP".data = .cInst [] "0".data "JMP".data ∧
    ParseInstruction "(foo123..$$:_)".data = .lInst "foo123..$$:_".data ∧
    ParseInstruction "(1abc)".data = .error "(1abc)".data ∧
    ParseInstruction "// I like pie!".data = .empty ∧
    ParseInstruction "   ".data = .empty ∧
    ParseInstruction "D=M              // D=first number".data
      = .cInst "D".data "M".data [] := by
  decide

theorem eval_symbols :
    AnalyzeSymbols [] "SP".data = some 0 ∧
    AnalyzeSymbols [] "R13".data = some 13 ∧
    AnalyzeSymbols [] "SCREEN".data = some 16384 ∧
    AnalyzeSymbols [] "KBD".data = some 24576 ∧
    AnalyzeSymbols [.aInst (.sym "x".data), .aInst (.sym "y".data),
      .aInst (.sym "x".data)] "y".data = some 17 ∧
    StripSymbols [.aInst (.sym "x".data), .lInst "L".data, .empty,
        .aInst (.num 7), .cInst "D".data "A".data []]
      = some [.aInst (.num 16), .aInst (.num 7),
          .cInst "D".data "A".data []] := by
  refine ⟨by decide, by decide, by decide, by decide, by decide, by decide⟩

theorem eval_encoder :
    AInstruction.ToBinary 2 = "0000000000000010".data ∧
    CInstruction.ToBinary "M".data "D".data []
      = some "1110001100001000".data ∧
    CInstruction.ToBinary [] "0".data "JMP".data
      = some "1110101010000111".data := by
  decide

theorem eval_parse :
    Parse ["I like pie!".data] = .error "Error at line 1: I like pie!".data ∧
    Parse ["@2".data, "D=A".data]
      = .ok [.aInst (.num 2), .cInst "D".data "A".data []] ∧
    Parse ["x!".data, "".data, "y!".data]
      = .error ("Error at line 1: x!".data
          ++ '\n' :: "Error at line 3: y!".data) := by
  refine ⟨by decide, by decide, by decide⟩

end Hack
